import Mathlib

/-!
Verification of the warhammer40k10thCalc probability engine.

Go source is shallowly embedded as follows.

* `map[int]float64` / `map[State]float64` become association lists
  (`Dist α := List (α × ℚ)`).  Duplicate keys are allowed; the value the Go map
  holds at a key is `get` (the sum of all entries at that key).  This is
  faithful because every map update in the engine has the form `m[k] += v`
  with `v` linear in the probability of the source entry being processed, so
  splitting a key's mass over several entries never changes `get` or the total.
* `float64` arithmetic is modeled by exact rational arithmetic (`ℚ`).
* Go `int` becomes `ℤ`, with 64-bit wraparound (`wrap64`) modeled explicitly
  wherever a run that terminates in practice can reach it: the dice parsers'
  key shift `finalDist[sumVal+modifier]` (`shiftDist`) and the `nCr` loop
  (`goNCrInt64`); `strconv.Atoi`'s range check is modeled explicitly.  The
  remaining integer arithmetic stays far below 2^63 on every such input, or
  is covered by the claims' hypotheses (see `goNCr`).
* Functions returning `(T, error)` become `Option T` (`none` = non-nil error).
* Go's nondeterministic map iteration order is replaced by list order; all the
  iterated operations are additive, so the resulting `get`/`sumValues` agree
  with the Go map for every iteration order.
-/

namespace W40k

/-- Association-list model of a Go probability map (see the file comment). -/
abbrev Dist (α : Type) := List (α × ℚ)

/-- The value the modeled Go map holds at key `k`: sum of all entries at `k`. -/
def get {α : Type} [DecidableEq α] (d : Dist α) (k : α) : ℚ :=
  (d.map (fun e => if e.1 = k then e.2 else 0)).sum

/-- Sum of all probabilities in a distribution (`Σ p` over the map's values). -/
def sumValues {α : Type} (d : Dist α) : ℚ :=
  (d.map (fun e => e.2)).sum

/-- Expected value `Σ k·p` of an integer-keyed distribution
(`formatResponse`'s `avgK`/`avgH` loops in part_003). -/
def expValue (d : Dist ℤ) : ℚ :=
  (d.map (fun e => (e.1 : ℚ) * e.2)).sum

/-- `pkg/models/rerollTypes.go`: `RerollType` with constants `RerollNone`,
`RerollOnes`, `RerollFail` (JSON names "none" / "ones" / "fail"). -/
inductive RerollType
  | none
  | ones
  | fail
deriving DecidableEq

/-- `pkg/models/calcDamage.go`: `DamageRequest`.  `WoundsPerModel` appears in
the engine (`req.WoundsPerModel` in part_003); the snapshot of the struct in
`calcDamage.go` predates it.  `RequestUUID` (set by middleware, never read by
the engine) is omitted. -/
structure DamageRequest where
  NumModels : ℤ
  WoundsPerModel : ℤ
  AttacksString : String
  BS : ℤ
  S : ℤ
  AP : ℤ
  D : String
  T : ℤ
  Save : ℤ
  Invulnerable : Option ℤ
  FeelNoPain : Option ℤ
  HitReroll : RerollType
  WoundReroll : RerollType
  HitModifier : ℤ
  WoundModifier : ℤ
  SaveModifier : ℤ
  LethalHits : Bool
  DevastatingWounds : Bool
  Torrent : Bool
deriving DecidableEq

/-- `pkg/models/calcDamage.go`: `DamageResponse`.  `Message` (a purely
informational formatted string) and `RequestUUID` are omitted. -/
structure DamageResponse where
  AverageHits : ℚ
  AverageDestroyed : ℚ
  HitsDistribution : Dist ℤ
  PensDistribution : Dist ℤ
  WoundsDistribution : Dist ℤ
  DestroyedDistribution : Dist ℤ
deriving DecidableEq

/-! ### String-level helpers: `strings.TrimSpace`, `strings.ToLower`,
`strconv.Atoi`, and the dice regular expression. -/

/-- ASCII digit test; this is what `\d` matches in Go's RE2 regexes. -/
def isDigitC (c : Char) : Bool :=
  48 ≤ c.toNat && c.toNat ≤ 57

/-- What `\s` matches in Go's RE2 regexes: `[\t\n\f\r ]`. -/
def isSpaceRE2 (c : Char) : Bool :=
  c.toNat = 9 || c.toNat = 10 || c.toNat = 12 || c.toNat = 13 || c.toNat = 32

/-- `unicode.IsSpace`, used by `strings.TrimSpace`: ASCII whitespace, NEL,
NBSP, and the Unicode space separators. -/
def isGoSpace (c : Char) : Bool :=
  let n := c.toNat
  (9 ≤ n && n ≤ 13) || n = 32 || n = 133 || n = 160 || n = 0x1680 ||
    (0x2000 ≤ n && n ≤ 0x200A) || n = 0x2028 || n = 0x2029 || n = 0x202F ||
    n = 0x205F || n = 0x3000

/-- `strings.TrimSpace`: drop leading and trailing whitespace. -/
def goTrimSpace (l : List Char) : List Char :=
  (((l.dropWhile isGoSpace).reverse).dropWhile isGoSpace).reverse

/-- Lowercasing of a single character as done by `strings.ToLower`.  Only the
ASCII range matters for the engine's regexes (no non-ASCII character lowercases
to an ASCII letter, digit, `+` or space, so the classifications the parsers
test are unaffected by the non-ASCII part of Go's table, which is therefore
not modeled). -/
def charLower (c : Char) : Char :=
  if 65 ≤ c.toNat ∧ c.toNat ≤ 90 then Char.ofNat (c.toNat + 32) else c

/-- `strings.ToLower`. -/
def goToLower (l : List Char) : List Char :=
  l.map charLower

/-- Numeric value of a digit string. -/
def digitsToNat (l : List Char) : ℕ :=
  l.foldl (fun a c => 10 * a + (c.toNat - 48)) 0

/-- `strconv.Atoi`: optional single sign, then a non-empty run of ASCII
digits; values outside the 64-bit int range are an error (`ErrRange`). -/
def goAtoi (l : List Char) : Option ℤ :=
  let neg : Bool := l.head? = some '-'
  let digits : List Char :=
    if l.head? = some '+' ∨ l.head? = some '-' then l.tail else l
  if digits = [] ∨ ¬ digits.all isDigitC then Option.none
  else
    let v : ℤ := (if neg then -1 else 1) * (digitsToNat digits : ℤ)
    if v < -(2 ^ 63) ∨ 2 ^ 63 - 1 < v then Option.none else some v

/-- `strconv.Atoi` with the error ignored, on a digits-only capture group (as
in `parseAndCalculateBaseDamage`): on 64-bit overflow Go returns the clamped
maximum together with the ignored `ErrRange`. -/
def atoiDigitsIgnoreErr (l : List Char) : ℤ :=
  if (digitsToNat l : ℤ) ≤ 2 ^ 63 - 1 then (digitsToNat l : ℤ) else 2 ^ 63 - 1

/-- The dice regex `^(\d*)d(\d+)\s*\+?\s*(\d*)$` (with `(?i)` in the attacks
parser: `d` or `D`), returning the three capture groups.  The pattern is
deterministic under maximal munch: each `\d*`/`\d+`/`\s*` run is followed by a
piece that cannot match its characters, so greedy matching needs no
backtracking. -/
def diceRegexMatch (l : List Char) :
    Option (List Char × List Char × List Char) :=
  let countStr := l.takeWhile isDigitC
  match l.dropWhile isDigitC with
  | [] => Option.none
  | c :: rest2 =>
    if c = 'd' ∨ c = 'D' then
      let facesStr := rest2.takeWhile isDigitC
      if facesStr = [] then Option.none
      else
        let rest4 := (rest2.dropWhile isDigitC).dropWhile isSpaceRE2
        let rest5 := if rest4.head? = some '+' then rest4.tail else rest4
        let rest6 := rest5.dropWhile isSpaceRE2
        let modStr := rest6.takeWhile isDigitC
        if rest6.dropWhile isDigitC = [] then some (countStr, facesStr, modStr)
        else Option.none
    else Option.none

/-! ### Dice-expression parsers (part_002 `CalculateAttackDistribution`,
save_prop "test" file `parseAndCalculateBaseDamage`). -/

/-- The faces `1 .. dieType` of a die (`for roll := 1; roll <= dieType`). -/
def dieFaces (dieType : ℤ) : List ℤ :=
  (List.range dieType.toNat).map (fun i : ℕ => (i : ℤ) + 1)

/-- One convolution pass with a fresh die: for every existing entry and every
face, emit `sum + roll` with probability `prob · (1/faces)`.  This is the
inner double loop shared verbatim by the attacks parser and the damage
parser.  The key sums are modeled exactly in ℤ: they are bounded by
`count·faces`, and a run in which they could reach 2^63 would need at least
`2^63/faces` convolution passes, so it never terminates in practice. -/
def convolveDie (dieType : ℤ) (d : Dist ℤ) : Dist ℤ :=
  d.flatMap (fun e =>
    (dieFaces dieType).map (fun roll => (e.1 + roll, e.2 * (1 / (dieType : ℚ)))))

/-- Two's-complement wraparound of 64-bit signed integer arithmetic: the
representative of `x mod 2^64` in `[-2^63, 2^63)`.  `%` on ℤ is `Int.emod`
(non-negative remainder), so this is exactly Go's int64 overflow. -/
def wrap64 (x : ℤ) : ℤ :=
  (x + 2 ^ 63) % 2 ^ 64 - 2 ^ 63

/-- Key shift by the parsed modifier (`finalDist[sumVal+modifier] = prob`).
The Go addition is int64 and the modifier may be as large as `MaxInt64`
(which `strconv.Atoi` accepts), so the shifted key can wrap; it is modeled
with `wrap64`. -/
def shiftDist (d : Dist ℤ) (m : ℤ) : Dist ℤ :=
  d.map (fun e => (wrap64 (e.1 + m), e.2))

/-- part_002 `CalculateAttackDistribution`: trim, try `strconv.Atoi`, then the
case-insensitive dice regex; `none` models the non-nil error returns. -/
def CalculateAttackDistribution (attackStr : String) : Option (Dist ℤ) :=
  let l := goTrimSpace attackStr.data
  match goAtoi l with
  | some val => some [(val, 1)]
  | Option.none =>
    match diceRegexMatch l with
    | Option.none => Option.none
    | some (countStr, facesStr, modStr) =>
      match (if countStr = [] then some 1 else goAtoi countStr) with
      | Option.none => Option.none
      | some numDice =>
        match goAtoi facesStr with
        | Option.none => Option.none
        | some dieType =>
          match (if modStr = [] then some 0 else goAtoi modStr) with
          | Option.none => Option.none
          | some modifier =>
            some (shiftDist ((convolveDie dieType)^[numDice.toNat] [(0, 1)])
              modifier)

/-- `parseAndCalculateBaseDamage`: lowercase + trim, try the dice regex, fall
back to `strconv.Atoi`, and on any failure return the tolerant `{0: 1.0}`.
Errors of the group `Atoi` calls are ignored by the Go code
(`count, _ = strconv.Atoi(...)`). -/
def parseAndCalculateBaseDamage (damageString : String) : Dist ℤ :=
  let normalized := goToLower (goTrimSpace damageString.data)
  match diceRegexMatch normalized with
  | Option.none =>
    match goAtoi normalized with
    | Option.none => [(0, 1)]
    | some val => [(val, 1)]
  | some (countStr, facesStr, modStr) =>
    let count := if countStr = [] then 1 else atoiDigitsIgnoreErr countStr
    let faces := atoiDigitsIgnoreErr facesStr
    let modifier := if modStr = [] then 0 else atoiDigitsIgnoreErr modStr
    if count = 0 then [(modifier, 1)]
    else
      shiftDist ((convolveDie faces)^[(count - 1).toNat]
        ((dieFaces faces).map (fun i => (i, 1 / (faces : ℚ))))) modifier

/-- `nCr`, idealized: the mathematical value of the Go multiplicative loop
(the binomial coefficient, with the source's guards).  The loop's
incremental division is exact at every step, but its int64 multiplication
wraps once an intermediate `C(n,i)·i` reaches 2^63, which first happens at
`n = 62`.  `goNCrInt64` below is the bit-exact semantics of the loop;
`goNCrInt64_eq_goNCr` proves the two agree for every `n ≤ 61`.  The engine
pipeline (`applyFeelNoPain`) is stated with this idealized value — exact for
all damage values up to 61 — and `applyFeelNoPainInt64` is its bit-exact
counterpart, used where a claim ranges over damage values that wrap. -/
def goNCr (n k : ℤ) : ℤ :=
  if k < 0 ∨ n < k then 0 else (n.toNat.choose k.toNat : ℤ)

/-- `nCr`, bit-exact: the Go loop `res = res * (n - i + 1) / i` on int64 —
wraparound multiplication (`wrap64`) followed by Go's truncated division
(`Int.tdiv`), with the source's guards and the `k > n/2` symmetry reduction
(`n/2` is also truncated division).  `n - i + 1` itself never leaves the
int64 range for in-range `n`, so only the product needs wrapping. -/
def goNCrInt64 (n k0 : ℤ) : ℤ :=
  if k0 < 0 ∨ n < k0 then 0
  else if k0 = 0 ∨ k0 = n then 1
  else
    let k : ℤ := if n.tdiv 2 < k0 then n - k0 else k0
    (List.range k.toNat).foldl
      (fun (res : ℤ) (i : ℕ) =>
        (wrap64 (res * (n - ((i : ℤ) + 1) + 1))).tdiv ((i : ℤ) + 1)) 1

/-- `applyFeelNoPain`: binomially split every incoming damage `n` into
`0 ≤ k ≤ n` taken damage with probability `C(n,k)·pFail^k·pSave^(n-k)`. -/
def applyFeelNoPain (baseDist : Dist ℤ) (fnpVal : ℤ) : Dist ℤ :=
  let pSave : ℚ :=
    if fnpVal ≤ 6 ∧ 2 ≤ fnpVal then (7 - (fnpVal : ℚ)) / 6
    else if fnpVal ≤ 1 then 1 else 0
  let pFail : ℚ := 1 - pSave
  baseDist.flatMap (fun e =>
    (List.range (e.1 + 1).toNat).map (fun k : ℕ =>
      ((k : ℤ), e.2 * (goNCr e.1 (k : ℤ) : ℚ) * pFail ^ k *
        pSave ^ (e.1 - (k : ℤ)).toNat)))

/-- `applyFeelNoPain` with the bit-exact `goNCrInt64` coefficients: the
int64-faithful damage-after-FNP PMF.  It equals `applyFeelNoPain` whenever
every incoming damage value is at most 61 (`applyFeelNoPainInt64_eq_le61`),
and diverges from the binomial expansion at damage 62. -/
def applyFeelNoPainInt64 (baseDist : Dist ℤ) (fnpVal : ℤ) : Dist ℤ :=
  let pSave : ℚ :=
    if fnpVal ≤ 6 ∧ 2 ≤ fnpVal then (7 - (fnpVal : ℚ)) / 6
    else if fnpVal ≤ 1 then 1 else 0
  let pFail : ℚ := 1 - pSave
  baseDist.flatMap (fun e =>
    (List.range (e.1 + 1).toNat).map (fun k : ℕ =>
      ((k : ℤ), e.2 * (goNCrInt64 e.1 (k : ℤ) : ℚ) * pFail ^ k *
        pSave ^ (e.1 - (k : ℤ)).toNat)))

/-- `_calculateDamageDistribution`: base damage PMF, reduced by Feel No Pain
when that is present. -/
def _calculateDamageDistribution (damageString : String)
    (feelNoPain : Option ℤ) : Dist ℤ :=
  let baseDist := parseAndCalculateBaseDamage damageString
  match feelNoPain with
  | Option.none => baseDist
  | some fnp => applyFeelNoPain baseDist fnp

/-! ### Per-die probability calculators (hit_prop.go, wound_prob.go,
save_prop.go). -/

/-- hit_prop.go `_calculateHitProbability`: returns
`(normal hit probability, lethal hit probability)`. -/
def _calculateHitProbability (bs : ℤ) (rerollType : RerollType)
    (hitModifier : ℤ) (lethalHits : Bool) : ℚ × ℚ :=
  let oneSixth : ℚ := 1 / 6
  let fiveSixths : ℚ := 5 / 6
  let targetRollChance : ℚ := (7 - (bs : ℚ) + (hitModifier : ℚ)) / 6
  let hitChance := max oneSixth (min targetRollChance fiveSixths)
  let missChance := 1 - hitChance
  let hitChance :=
    if rerollType = RerollType.ones then hitChance + oneSixth * hitChance
    else if rerollType = RerollType.fail then hitChance + missChance * hitChance
    else hitChance
  if lethalHits then
    let lethalHitChance :=
      if rerollType = RerollType.ones then oneSixth + oneSixth * oneSixth
      else if rerollType = RerollType.fail then oneSixth + missChance * oneSixth
      else oneSixth
    (max 0 (hitChance - lethalHitChance), lethalHitChance)
  else
    (hitChance, 0)

/-- wound_prob.go `_calculateWoundProbability`: returns
`(normal wound probability, devastating wound probability)`. -/
def _calculateWoundProbability (s t : ℤ) (rerollType : RerollType)
    (woundModifier : ℤ) (devastatingWounds : Bool) : ℚ × ℚ :=
  let oneSixth : ℚ := 1 / 6
  let targetRoll : ℤ :=
    if s * 2 ≤ t then 6
    else if s < t then 5
    else if t * 2 ≤ s then 2
    else if t < s then 3
    else 4
  let finalTargetRoll : ℚ := max 2 (min 6 ((targetRoll : ℚ) - (woundModifier : ℚ)))
  let woundChance := (7 - finalTargetRoll) / 6
  let missChance := 1 - woundChance
  let woundChance :=
    if rerollType = RerollType.ones then woundChance + oneSixth * woundChance
    else if rerollType = RerollType.fail then woundChance + missChance * woundChance
    else woundChance
  if devastatingWounds then
    let devastatingWoundChance :=
      if rerollType = RerollType.ones then oneSixth + oneSixth * oneSixth
      else if rerollType = RerollType.fail then oneSixth + missChance * oneSixth
      else oneSixth
    (max 0 (woundChance - devastatingWoundChance), devastatingWoundChance)
  else
    (woundChance, 0)

/-- save_prop.go `_calculateFailedSaveProbability`. -/
def _calculateFailedSaveProbability (ap save : ℤ) (invulnerable : Option ℤ)
    (saveModifier : ℤ) : ℚ :=
  let armorSaveTarget : ℤ := save + ap - saveModifier
  let finalTarget : ℤ :=
    match invulnerable with
    | some invulnTarget =>
      if invulnTarget < armorSaveTarget then invulnTarget else armorSaveTarget
    | Option.none => armorSaveTarget
  let finalTarget : ℤ := if finalTarget < 2 then 2 else finalTarget
  if 6 < finalTarget then (1 : ℚ)
  else 1 - (7 - (finalTarget : ℚ)) / 6

/-! ### Stage convolvers (part_003 `getHitOutcomes`, `getWoundOutcomes`,
`getUnsavedOutcomes`). -/

/-- One trial of `getHitOutcomes`: miss / normal hit / lethal hit. -/
def hitStep (pHit pLethal : ℚ) (res : Dist (ℤ × ℤ)) : Dist (ℤ × ℤ) :=
  res.flatMap (fun e =>
    [(e.1, e.2 * (1 - (pHit + pLethal))),
     ((e.1.1 + 1, e.1.2), e.2 * pHit),
     ((e.1.1, e.1.2 + 1), e.2 * pLethal)])

/-- part_003 `getHitOutcomes`: distribution over (normal hits, lethal hits)
after `n` attacks. -/
def getHitOutcomes (n : ℤ) (pHit pLethal : ℚ) : Dist (ℤ × ℤ) :=
  (hitStep pHit pLethal)^[n.toNat] [((0, 0), 1)]

/-- One trial of `getWoundOutcomes`: fail / normal wound / devastating wound. -/
def woundStep (pWound pDev : ℚ) (res : Dist (ℤ × ℤ)) : Dist (ℤ × ℤ) :=
  res.flatMap (fun e =>
    [(e.1, e.2 * (1 - (pWound + pDev))),
     ((e.1.1 + 1, e.1.2), e.2 * pWound),
     ((e.1.1, e.1.2 + 1), e.2 * pDev)])

/-- part_003 `getWoundOutcomes`: lethal hits start as `lHit` guaranteed
normal wounds, then the `nHit` normal hits roll to wound. -/
def getWoundOutcomes (nHit lHit : ℤ) (pWound pDev : ℚ) : Dist (ℤ × ℤ) :=
  (woundStep pWound pDev)^[nHit.toNat] [((lHit, 0), 1)]

/-- One save roll of `getUnsavedOutcomes`: passed / failed. -/
def saveStep (pFail : ℚ) (res : Dist (ℤ × ℤ)) : Dist (ℤ × ℤ) :=
  res.flatMap (fun e =>
    [(e.1, e.2 * (1 - pFail)),
     ((e.1.1 + 1, e.1.2), e.2 * pFail)])

/-- One devastating wound of `getUnsavedOutcomes`: guaranteed unsaved
(mortal). -/
def devStep (res : Dist (ℤ × ℤ)) : Dist (ℤ × ℤ) :=
  res.map (fun e => ((e.1.1, e.1.2 + 1), e.2))

/-- part_003 `getUnsavedOutcomes`: `nWnd` save rolls, then `dWnd` guaranteed
mortal wounds. -/
def getUnsavedOutcomes (nWnd dWnd : ℤ) (pFail : ℚ) : Dist (ℤ × ℤ) :=
  devStep^[dWnd.toNat] ((saveStep pFail)^[nWnd.toNat] [((0, 0), 1)])

/-! ### Damage-allocation Markov chain (part_003 `resolveDamageSequential`,
`applyWounds`).  A `UnitState` pair `(Killed, CurrentHP)` is modeled as
`ℤ × ℤ`. -/

/-- The mortal-wound spillover loop of `applyWounds`
(`for rem > 0 && killed < totalModels { ... }`); returns the final
`(killed, hp)`. -/
def spillLoop (maxHP totalModels rem killed hp : ℤ) : ℤ × ℤ :=
  if _h : 0 < rem ∧ killed < totalModels then
    if hp ≤ rem then spillLoop maxHP totalModels (rem - hp) (killed + 1) maxHP
    else (killed, hp - rem)
  else (killed, hp)
termination_by (totalModels - killed).toNat
decreasing_by
  omega

/-- part_003 `applyWounds`: one unsaved wound applied to every unit state;
states with the whole unit dead are carried forward unchanged. -/
def applyWounds (states : Dist (ℤ × ℤ)) (dmgDist : Dist ℤ)
    (maxHP totalModels : ℤ) (spills : Bool) : Dist (ℤ × ℤ) :=
  states.flatMap (fun e =>
    if totalModels ≤ e.1.1 then [e]
    else
      dmgDist.flatMap (fun d =>
        [(if spills then spillLoop maxHP totalModels d.1 e.1.1 e.1.2
          else if e.1.2 ≤ d.1 then (e.1.1 + 1, maxHP)
          else (e.1.1, e.1.2 - d.1), e.2 * d.2)]))

/-- part_003 `resolveDamageSequential`: all `nNorm` normal (non-spillover)
wounds, then all `nMortal` mortal (spillover) wounds, starting from
`{(0, maxHP): 1}`; finally collapse `(killed, hp) ↦ killed`. -/
def resolveDamageSequential (nNorm nMortal : ℤ) (dmgDist : Dist ℤ)
    (maxHP totalModels : ℤ) : Dist ℤ :=
  let states0 : Dist (ℤ × ℤ) := [((0, maxHP), 1)]
  let states1 :=
    (fun s => applyWounds s dmgDist maxHP totalModels false)^[nNorm.toNat] states0
  let states2 :=
    (fun s => applyWounds s dmgDist maxHP totalModels true)^[nMortal.toNat] states1
  states2.map (fun e => (e.1.1, e.2))

/-! ### Orchestrator (part_003 `CalculateDamageCore`). -/

/-- The hit probabilities the engine uses: part_003 line 52 calls
`_calculateHitProbability(req.BS, req.HitReroll, req.HitModifier,
req.LethalHits)` — `req.Torrent` is not passed. -/
def engineHitProbs (req : DamageRequest) : ℚ × ℚ :=
  _calculateHitProbability req.BS req.HitReroll req.HitModifier req.LethalHits

/-- part_003 `CalculateDamageCore` (the probability engine).  The Go code
accumulates the four output maps inside one nested loop; here each map is the
same multiset of `+=` contributions written as nested `flatMap`s. -/
def CalculateDamageCore (req : DamageRequest) : Option DamageResponse :=
  match CalculateAttackDistribution req.AttacksString with
  | Option.none => Option.none
  | some attacksDist =>
    let damageDist := _calculateDamageDistribution req.D req.FeelNoPain
    let hp := engineHitProbs req
    let wp := _calculateWoundProbability req.S req.T req.WoundReroll
      req.WoundModifier req.DevastatingWounds
    let saveFailP := _calculateFailedSaveProbability req.AP req.Save
      req.Invulnerable req.SaveModifier
    let hitsDist : Dist ℤ := attacksDist.flatMap (fun a =>
      (getHitOutcomes a.1 hp.1 hp.2).map (fun ho =>
        (ho.1.1 + ho.1.2, a.2 * ho.2)))
    let woundsDist : Dist ℤ := attacksDist.flatMap (fun a =>
      (getHitOutcomes a.1 hp.1 hp.2).flatMap (fun ho =>
        (getWoundOutcomes ho.1.1 ho.1.2 wp.1 wp.2).map (fun wo =>
          (wo.1.1 + wo.1.2, a.2 * ho.2 * wo.2))))
    let pensDist : Dist ℤ := attacksDist.flatMap (fun a =>
      (getHitOutcomes a.1 hp.1 hp.2).flatMap (fun ho =>
        (getWoundOutcomes ho.1.1 ho.1.2 wp.1 wp.2).flatMap (fun wo =>
          (getUnsavedOutcomes wo.1.1 wo.1.2 saveFailP).map (fun uo =>
            (uo.1.1 + uo.1.2, a.2 * ho.2 * wo.2 * uo.2)))))
    let killedDist : Dist ℤ := attacksDist.flatMap (fun a =>
      (getHitOutcomes a.1 hp.1 hp.2).flatMap (fun ho =>
        (getWoundOutcomes ho.1.1 ho.1.2 wp.1 wp.2).flatMap (fun wo =>
          (getUnsavedOutcomes wo.1.1 wo.1.2 saveFailP).flatMap (fun uo =>
            (resolveDamageSequential uo.1.1 uo.1.2 damageDist
              req.WoundsPerModel req.NumModels).map (fun kk =>
                (kk.1, a.2 * ho.2 * wo.2 * uo.2 * kk.2))))))
    some
      { AverageHits := expValue hitsDist
        AverageDestroyed := expValue killedDist
        HitsDistribution := hitsDist
        PensDistribution := pensDist
        WoundsDistribution := woundsDist
        DestroyedDistribution := killedDist }

/-- The second, unfinished placeholder variant of `CalculateDamageCore`
(part_003 lines 279–296): rejects `NumModels ≤ 0` (with an unrelated error
message) and returns a stub response; it never checks `WoundsPerModel`. -/
def CalculateDamageCoreUnfinished (req : DamageRequest) :
    Option DamageResponse :=
  if req.NumModels ≤ 0 then Option.none
  else
    some
      { AverageHits := (req.NumModels : ℚ) * (1 / 2)
        AverageDestroyed := 0
        HitsDistribution := []
        PensDistribution := []
        WoundsDistribution := []
        DestroyedDistribution := [] }

/-! ### Concrete requests used by witnesses and counterexamples. -/

/-- Base request: the first test case of part_001 (1 attack, BS 4+, S5 T3,
save 6+, damage 1, one 1-wound model). -/
def reqBase : DamageRequest :=
  { NumModels := 1, WoundsPerModel := 1, AttacksString := "1", BS := 4, S := 5,
    AP := 0, D := "1", T := 3, Save := 6, Invulnerable := Option.none,
    FeelNoPain := Option.none, HitReroll := RerollType.none,
    WoundReroll := RerollType.none, HitModifier := 0, WoundModifier := 0,
    SaveModifier := 0, LethalHits := false, DevastatingWounds := false,
    Torrent := false }

/-- `reqBase` with `torrent` set. -/
def reqTorrent : DamageRequest := { reqBase with Torrent := true }

/-- `reqBase` with `num_models = 0`. -/
def reqNoModels : DamageRequest := { reqBase with NumModels := 0 }

set_option maxRecDepth 4000

/-! ## Lemmas about the association-list model -/

theorem get_nil {α : Type} [DecidableEq α] (k : α) : get ([] : Dist α) k = 0 := rfl

theorem get_cons {α : Type} [DecidableEq α] (e : α × ℚ) (d : Dist α) (k : α) :
    get (e :: d) k = (if e.1 = k then e.2 else 0) + get d k := by
  simp [get]

theorem get_append {α : Type} [DecidableEq α] (a b : Dist α) (k : α) :
    get (a ++ b) k = get a k + get b k := by
  simp [get]

theorem sumValues_nil {α : Type} : sumValues ([] : Dist α) = 0 := rfl

theorem sumValues_cons {α : Type} (e : α × ℚ) (d : Dist α) :
    sumValues (e :: d) = e.2 + sumValues d := by
  simp [sumValues]

theorem sumValues_append {α : Type} (a b : Dist α) :
    sumValues (a ++ b) = sumValues a + sumValues b := by
  simp [sumValues]

theorem sumValues_flatMap {α β : Type} (l : List β) (f : β → Dist α) :
    sumValues (l.flatMap f) = (l.map (fun e => sumValues (f e))).sum := by
  induction l with
  | nil => rfl
  | cons e t ih => simp [List.flatMap_cons, sumValues_append, ih]

theorem get_flatMap {α β : Type} [DecidableEq α] (l : List β) (f : β → Dist α)
    (k : α) : get (l.flatMap f) k = (l.map (fun e => get (f e) k)).sum := by
  induction l with
  | nil => rfl
  | cons e t ih => simp [List.flatMap_cons, get_append, ih]

theorem sumValues_reKey {α β : Type} (l : Dist α) (g : α × ℚ → β) :
    sumValues (l.map (fun e => (g e, e.2))) = sumValues l := by
  simp only [sumValues, List.map_map]
  rfl

theorem get_of_ne_zero {α : Type} [DecidableEq α] (d : Dist α) (k : α)
    (h : get d k ≠ 0) : ∃ e ∈ d, e.1 = k := by
  induction d with
  | nil => exact absurd rfl h
  | cons e t ih =>
    rw [get_cons] at h
    by_cases hk : e.1 = k
    · exact ⟨e, List.mem_cons_self .., hk⟩
    · simp only [hk, if_false, zero_add] at h
      obtain ⟨x, hx, hk'⟩ := ih h
      exact ⟨x, List.mem_cons_of_mem _ hx, hk'⟩

theorem sumValues_convolveDie (f : ℤ) (hf : 1 ≤ f) (d : Dist ℤ) :
    sumValues (convolveDie f d) = sumValues d := by
  rw [convolveDie, sumValues_flatMap]
  rw [show (fun e : ℤ × ℚ => sumValues ((dieFaces f).map
      (fun roll => (e.1 + roll, e.2 * (1 / (f : ℚ)))))) =
      (fun e : ℤ × ℚ => e.2) from ?_]
  · rfl
  · funext e
    rw [sumValues, List.map_map]
    have hc : ((fun e : ℤ × ℚ => e.2) ∘ fun roll =>
        (e.1 + roll, e.2 * (1 / (f : ℚ)))) =
        (fun _ : ℤ => e.2 * (1 / (f : ℚ))) := rfl
    rw [hc, List.map_const', List.sum_replicate, nsmul_eq_mul]
    have hlen : (dieFaces f).length = f.toNat := by
      rw [dieFaces, List.length_map, List.length_range]
    rw [hlen]
    have hfq : ((f.toNat : ℕ) : ℚ) = (f : ℚ) := by
      rw [show ((f.toNat : ℕ) : ℚ) = ((f.toNat : ℤ) : ℚ) by push_cast; ring]
      rw [Int.toNat_of_nonneg (by omega)]
    rw [hfq]
    have hfne : (f : ℚ) ≠ 0 := by
      have : (0 : ℚ) < (f : ℚ) := by exact_mod_cast (by omega : (0:ℤ) < f)
      exact ne_of_gt this
    field_simp

theorem keys_nonneg_convolveDie (f : ℤ) (d : Dist ℤ)
    (hd : ∀ e ∈ d, 0 ≤ e.1) : ∀ e ∈ convolveDie f d, 0 ≤ e.1 := by
  intro x hx
  rw [convolveDie] at hx
  obtain ⟨e, he, hxe⟩ := List.mem_flatMap.mp hx
  obtain ⟨r, hrm, hr⟩ := List.mem_map.mp hxe
  subst hr
  have h1 : 1 ≤ r := by
    rw [dieFaces] at hrm
    obtain ⟨i, _, hi⟩ := List.mem_map.mp hrm
    omega
  have := hd e he
  show 0 ≤ e.1 + r
  omega

theorem convolveDie_zero_faces (d : Dist ℤ) : convolveDie 0 d = [] := by
  rw [convolveDie]
  have : dieFaces 0 = [] := rfl
  rw [this]
  induction d with
  | nil => rfl
  | cons e t ih => simp [List.flatMap_cons, ih]

theorem sumValues_shiftDist (d : Dist ℤ) (m : ℤ) :
    sumValues (shiftDist d m) = sumValues d :=
  sumValues_reKey d _

theorem wrap64_eq_self (x : ℤ) (h1 : -(2 ^ 63) ≤ x) (h2 : x < 2 ^ 63) :
    wrap64 x = x := by
  rw [wrap64]
  omega

theorem wrap64_big (x : ℤ) (h0 : 0 ≤ x) (hneg : wrap64 x < 0) : 2 ^ 63 ≤ x := by
  rw [wrap64] at hneg
  omega

theorem dist_iterate_keys_nonneg (f : ℤ) (n : ℕ) :
    ∀ e ∈ (convolveDie f)^[n] [((0 : ℤ), (1 : ℚ))], 0 ≤ e.1 := by
  induction n with
  | zero =>
    intro e he
    simp only [Function.iterate_zero_apply, List.mem_singleton] at he
    subst he
    exact le_refl 0
  | succ m ih =>
    rw [Function.iterate_succ_apply']
    exact keys_nonneg_convolveDie f _ ih

theorem dist_iterate_sum_one (f : ℤ) (hf : 1 ≤ f) (n : ℕ) :
    sumValues ((convolveDie f)^[n] [((0 : ℤ), (1 : ℚ))]) = 1 := by
  induction n with
  | zero => simp [sumValues]
  | succ m ih => rw [Function.iterate_succ_apply', sumValues_convolveDie f hf, ih]

theorem digit_not_sign (c : Char) (hc : isDigitC c = true) :
    c ≠ '+' ∧ c ≠ '-' := by
  constructor <;> intro h <;> subst h <;> simp [isDigitC] at hc

theorem goAtoi_digits (l : List Char) (hl : l.all isDigitC = true)
    (hne : l ≠ []) :
    goAtoi l = Option.none ∨ goAtoi l = some ((digitsToNat l : ℕ) : ℤ) := by
  rw [goAtoi]
  have h1 : (l.head? = some '+') = False := by
    simp only [eq_iff_iff, iff_false]
    intro hcon
    rcases l with _ | ⟨c, t⟩
    · exact hne rfl
    · have hc := digit_not_sign c (List.all_eq_true.mp hl c (List.mem_cons_self ..))
      simp only [List.head?, Option.some.injEq] at hcon
      exact hc.1 hcon
  have h2 : (l.head? = some '-') = False := by
    simp only [eq_iff_iff, iff_false]
    intro hcon
    rcases l with _ | ⟨c, t⟩
    · exact hne rfl
    · have hc := digit_not_sign c (List.all_eq_true.mp hl c (List.mem_cons_self ..))
      simp only [List.head?, Option.some.injEq] at hcon
      exact hc.2 hcon
  simp only [h1, h2, or_self, if_false, decide_False, Bool.false_eq_true, one_mul]
  rw [if_neg (by
    push_neg
    exact ⟨hne, hl⟩)]
  split
  · exact Or.inl rfl
  · exact Or.inr rfl

theorem goAtoi_range (l : List Char) (v : ℤ) (h : goAtoi l = some v) :
    -(2 ^ 63) ≤ v ∧ v ≤ 2 ^ 63 - 1 := by
  rw [goAtoi] at h
  try dsimp only at h
  repeat' split at h
  all_goals
    first
      | (simp only [Option.some.injEq] at h
         subst h
         push_neg at *
         omega)
      | simp at h

theorem diceRegexMatch_groups (l cs fs ms : List Char)
    (h : diceRegexMatch l = some (cs, fs, ms)) :
    cs.all isDigitC = true ∧ fs.all isDigitC = true ∧ ms.all isDigitC = true ∧
      fs ≠ [] := by
  rw [diceRegexMatch] at h
  split at h
  · simp at h
  · split at h
    · try dsimp only at h
      split at h
      · simp at h
      · try dsimp only at h
        split at h <;> split at h <;>
          first
          | (simp only [Option.some.injEq, Prod.mk.injEq] at h
             obtain ⟨hc, hf, hm⟩ := h
             subst hc
             subst hf
             subst hm
             refine ⟨List.all_takeWhile .., List.all_takeWhile ..,
               List.all_takeWhile .., by assumption⟩)
          | simp at h
    · simp at h

theorem attacks_parse_spec (s : String) (l : Dist ℤ)
    (h : CalculateAttackDistribution s = some l) :
    (∃ v : ℤ, goAtoi (goTrimSpace s.data) = some v ∧ l = [(v, 1)]) ∨
    (∃ cs fs ms : List Char, ∃ numDice dieType modifier : ℤ,
      diceRegexMatch (goTrimSpace s.data) = some (cs, fs, ms) ∧
      goAtoi (goTrimSpace s.data) = Option.none ∧
      (if cs = [] then some 1 else goAtoi cs) = some numDice ∧
      goAtoi fs = some dieType ∧
      (if ms = [] then some 0 else goAtoi ms) = some modifier ∧
      l = shiftDist ((convolveDie dieType)^[numDice.toNat] [(0, 1)]) modifier) := by
  rw [CalculateAttackDistribution] at h
  split at h
  · left
    refine ⟨_, by assumption, ?_⟩
    simpa using h.symm
  · split at h
    · simp at h
    · split at h
      · simp at h
      · split at h
        · simp at h
        · split at h
          · simp at h
          · right
            rename_i x4 heqAtoi x3 countStr facesStr modStr heqDice x2 nD heqND x1 dT heqDT x0 md heqMD
            refine ⟨countStr, facesStr, modStr, nD, dT, md, heqDice, heqAtoi,
              heqND, heqDT, heqMD, ?_⟩
            exact (Option.some.injEq _ _ ▸ h).symm

theorem attacks_accepted_cases (s : String) (l : Dist ℤ)
    (h : CalculateAttackDistribution s = some l) :
    (sumValues l = 1 ∧ ∀ e ∈ l, 0 ≤ e.1) ∨
    (∃ v : ℤ, v < 0 ∧ goAtoi (goTrimSpace s.data) = some v ∧ l = [(v, 1)]) ∨
    (∃ cs fs ms : List Char,
      diceRegexMatch (goTrimSpace s.data) = some (cs, fs, ms) ∧
      digitsToNat fs = 0 ∧ l = []) ∨
    (sumValues l = 1 ∧ ∃ x ∈ l, x.1 < 0 ∧ ∃ c m : ℤ, 0 ≤ c ∧ 0 ≤ m ∧
      m ≤ 2 ^ 63 - 1 ∧ x.1 = wrap64 (c + m) ∧ 2 ^ 63 ≤ c + m) := by
  rcases attacks_parse_spec s l h with ⟨v, hv, hl⟩ |
    ⟨cs, fs, ms, nD, dT, md, hDice, hA, hND, hDT, hMD, hl⟩
  · by_cases hvneg : v < 0
    · exact Or.inr (Or.inl ⟨v, hvneg, hv, hl⟩)
    · left
      subst hl
      refine ⟨by simp [sumValues], ?_⟩
      intro e he
      simp only [List.mem_singleton] at he
      subst he
      show 0 ≤ v
      omega
  · obtain ⟨hcs, hfs, hms, hfsne⟩ := diceRegexMatch_groups _ _ _ _ hDice
    have hdt : dT = ((digitsToNat fs : ℕ) : ℤ) := by
      rcases goAtoi_digits fs hfs hfsne with hnone | hsome
      · rw [hnone] at hDT
        exact absurd hDT (by simp)
      · rw [hsome] at hDT
        have hd : ((digitsToNat fs : ℕ) : ℤ) = dT := by
          injection hDT
        omega
    have hmd : 0 ≤ md := by
      by_cases hmse : ms = []
      · rw [if_pos hmse] at hMD
        have : (0 : ℤ) = md := by injection hMD
        omega
      · rw [if_neg hmse] at hMD
        rcases goAtoi_digits ms hms hmse with hnone | hsome
        · rw [hnone] at hMD
          exact absurd hMD (by simp)
        · rw [hsome] at hMD
          have : ((digitsToNat ms : ℕ) : ℤ) = md := by injection hMD
          omega
    have hmdUB : md ≤ 2 ^ 63 - 1 := by
      by_cases hmse : ms = []
      · rw [if_pos hmse] at hMD
        have : (0 : ℤ) = md := by injection hMD
        omega
      · rw [if_neg hmse] at hMD
        exact (goAtoi_range ms md hMD).2
    by_cases hdz : digitsToNat fs = 0
    · rcases hn : nD.toNat with k | k
      · left
        subst hl
        rw [hn]
        refine ⟨by simp [sumValues, shiftDist], ?_⟩
        intro e he
        simp only [Function.iterate_zero_apply, shiftDist, List.map_cons,
          List.map_nil, List.mem_singleton] at he
        subst he
        show 0 ≤ wrap64 (0 + md)
        rw [wrap64_eq_self (0 + md) (by omega) (by omega)]
        omega
      · right
        right
        left
        refine ⟨cs, fs, ms, hDice, hdz, ?_⟩
        subst hl
        rw [hn, Function.iterate_succ_apply', hdt,
          show ((digitsToNat fs : ℕ) : ℤ) = 0 by rw [hdz]; rfl,
          convolveDie_zero_faces]
        rfl
    · subst hl
      have hdt1 : 1 ≤ dT := by
        rw [hdt]
        omega
      have hsum :
          sumValues (shiftDist ((convolveDie dT)^[nD.toNat] [(0, 1)]) md) = 1 := by
        rw [sumValues_shiftDist, dist_iterate_sum_one dT hdt1]
      by_cases hall :
          ∀ x ∈ shiftDist ((convolveDie dT)^[nD.toNat] [(0, 1)]) md, 0 ≤ x.1
      · exact Or.inl ⟨hsum, hall⟩
      · push_neg at hall
        obtain ⟨x, hx, hxneg⟩ := hall
        right
        right
        right
        refine ⟨hsum, x, hx, hxneg, ?_⟩
        rw [shiftDist] at hx
        obtain ⟨e, he, hxe⟩ := List.mem_map.mp hx
        have hc := dist_iterate_keys_nonneg dT nD.toNat e he
        have hx1 : x.1 = wrap64 (e.1 + md) := by rw [← hxe]
        refine ⟨e.1, md, hc, hmd, hmdUB, hx1, ?_⟩
        apply wrap64_big (e.1 + md) (by omega)
        rw [← hx1]
        exact hxneg

/-! ## `strings.ToLower` does not change what the parsers see -/

theorem toNat_charLower (c : Char) :
    (charLower c).toNat =
      if 65 ≤ c.toNat ∧ c.toNat ≤ 90 then c.toNat + 32 else c.toNat := by
  rw [charLower]
  split
  · next h =>
    rw [Char.ofNat, dif_pos (Or.inl (by omega))]
    rfl
  · rfl

theorem char_eq_iff_toNat (a b : Char) : a = b ↔ a.toNat = b.toNat := by
  constructor
  · intro h
    rw [h]
  · intro h
    have hv : a.val.toNat = b.val.toNat := h
    exact Char.ext (UInt32.ext hv)

theorem isDigitC_charLower (c : Char) : isDigitC (charLower c) = isDigitC c := by
  rw [Bool.eq_iff_iff]
  simp only [isDigitC, Bool.and_eq_true, decide_eq_true_eq, toNat_charLower]
  split <;> omega

theorem isSpaceRE2_charLower (c : Char) :
    isSpaceRE2 (charLower c) = isSpaceRE2 c := by
  rw [Bool.eq_iff_iff]
  simp only [isSpaceRE2, Bool.or_eq_true, decide_eq_true_eq, toNat_charLower]
  split <;> omega

theorem charLower_eq_plus (c : Char) : charLower c = '+' ↔ c = '+' := by
  rw [char_eq_iff_toNat, char_eq_iff_toNat c, toNat_charLower]
  have : ('+').toNat = 43 := rfl
  rw [this]
  split <;> omega

theorem charLower_eq_minus (c : Char) : charLower c = '-' ↔ c = '-' := by
  rw [char_eq_iff_toNat, char_eq_iff_toNat c, toNat_charLower]
  have : ('-').toNat = 45 := rfl
  rw [this]
  split <;> omega

theorem charLower_dD (c : Char) :
    (charLower c = 'd' ∨ charLower c = 'D') ↔ (c = 'd' ∨ c = 'D') := by
  rw [char_eq_iff_toNat, char_eq_iff_toNat (charLower c) 'D',
    char_eq_iff_toNat c, char_eq_iff_toNat c 'D', toNat_charLower]
  have hd : ('d').toNat = 100 := rfl
  have hD : ('D').toNat = 68 := rfl
  rw [hd, hD]
  split <;> omega

theorem charLower_fix_digit (c : Char) (h : isDigitC c = true) :
    charLower c = c := by
  rw [charLower, if_neg]
  simp only [isDigitC, Bool.and_eq_true, decide_eq_true_eq] at h
  omega

theorem charLower_fix_space (c : Char) (h : isSpaceRE2 c = true) :
    charLower c = c := by
  rw [charLower, if_neg]
  simp only [isSpaceRE2, Bool.or_eq_true, decide_eq_true_eq] at h
  omega

theorem takeWhile_map_charLower (p : Char → Bool)
    (hp : ∀ c, p (charLower c) = p c)
    (hfix : ∀ c, p c = true → charLower c = c) (l : List Char) :
    (l.map charLower).takeWhile p = l.takeWhile p := by
  induction l with
  | nil => rfl
  | cons c t ih =>
    simp only [List.map_cons, List.takeWhile_cons, hp c]
    by_cases h : p c = true
    · simp only [h, if_true, ih, hfix c h]
    · have hb : p c = false := by
        revert h
        cases p c <;> simp
      simp only [hb, Bool.false_eq_true, if_false]

theorem dropWhile_map_charLower (p : Char → Bool)
    (hp : ∀ c, p (charLower c) = p c) (l : List Char) :
    (l.map charLower).dropWhile p = (l.dropWhile p).map charLower := by
  induction l with
  | nil => rfl
  | cons c t ih =>
    simp only [List.map_cons, List.dropWhile_cons, hp c]
    by_cases h : p c = true
    · simp only [h, if_true, ih]
    · have hb : p c = false := by
        revert h
        cases p c <;> simp
      simp only [hb, Bool.false_eq_true, if_false, List.map_cons]

theorem map_charLower_digits (l : List Char) (h : l.all isDigitC = true) :
    l.map charLower = l := by
  induction l with
  | nil => rfl
  | cons c t ih =>
    simp only [List.all_cons, Bool.and_eq_true] at h
    simp only [List.map_cons, charLower_fix_digit c h.1, ih h.2]

theorem head?_plus_map (l : List Char) :
    ((l.map charLower).head? = some '+') = (l.head? = some '+') := by
  rcases l with _ | ⟨c, t⟩
  · rfl
  · simp only [List.map_cons, List.head?_cons, Option.some.injEq]
    exact propext (charLower_eq_plus c)

theorem head?_minus_map (l : List Char) :
    ((l.map charLower).head? = some '-') = (l.head? = some '-') := by
  rcases l with _ | ⟨c, t⟩
  · rfl
  · simp only [List.map_cons, List.head?_cons, Option.some.injEq]
    exact propext (charLower_eq_minus c)

theorem all_isDigitC_map (l : List Char) :
    (l.map charLower).all isDigitC = l.all isDigitC := by
  rw [List.all_map]
  rw [show isDigitC ∘ charLower = isDigitC from funext isDigitC_charLower]

theorem mapped_digits_cond (d : List Char) :
    (d.map charLower = [] ∨ ¬ (d.map charLower).all isDigitC = true) ↔
      (d = [] ∨ ¬ d.all isDigitC = true) := by
  rw [all_isDigitC_map, List.map_eq_nil_iff]

theorem goAtoi_goToLower (l : List Char) :
    goAtoi (goToLower l) = goAtoi l := by
  rw [goAtoi, goAtoi, goToLower]
  have hplus : ((l.map charLower).head? = some '+') ↔ (l.head? = some '+') :=
    iff_of_eq (head?_plus_map l)
  have hminus : ((l.map charLower).head? = some '-') ↔ (l.head? = some '-') :=
    iff_of_eq (head?_minus_map l)
  have hnegb : (decide ((l.map charLower).head? = some '-')) =
      decide (l.head? = some '-') := decide_eq_decide.mpr hminus
  rw [hnegb]
  have h3 : (l.map charLower).tail = l.tail.map charLower := by
    rcases l with _ | ⟨c, t⟩ <;> rfl
  by_cases hsig : l.head? = some '+' ∨ l.head? = some '-'
  · have hsig2 : (l.map charLower).head? = some '+' ∨
        (l.map charLower).head? = some '-' := by
      rcases hsig with h | h
      · exact Or.inl (hplus.mpr h)
      · exact Or.inr (hminus.mpr h)
    rw [if_pos hsig, if_pos hsig2, h3]
    by_cases hd : l.tail = [] ∨ ¬ l.tail.all isDigitC = true
    · rw [if_pos hd, if_pos ((mapped_digits_cond l.tail).mpr hd)]
    · rw [if_neg hd, if_neg (fun hcon => hd ((mapped_digits_cond l.tail).mp hcon))]
      push_neg at hd
      rw [map_charLower_digits _ hd.2]
  · have hsig2 : ¬ ((l.map charLower).head? = some '+' ∨
        (l.map charLower).head? = some '-') := by
      intro hcon
      rcases hcon with h | h
      · exact hsig (Or.inl (hplus.mp h))
      · exact hsig (Or.inr (hminus.mp h))
    rw [if_neg hsig, if_neg hsig2]
    by_cases hd : l = [] ∨ ¬ l.all isDigitC = true
    · rw [if_pos hd, if_pos ((mapped_digits_cond l).mpr hd)]
    · rw [if_neg hd, if_neg (fun hcon => hd ((mapped_digits_cond l).mp hcon))]
      push_neg at hd
      rw [map_charLower_digits _ hd.2]

theorem diceTail_lower_eq (g1 g2 : List Char) (rest5 : List Char) :
    (if ((rest5.map charLower).dropWhile isSpaceRE2).dropWhile isDigitC = []
     then some (g1, g2, ((rest5.map charLower).dropWhile isSpaceRE2).takeWhile isDigitC)
     else Option.none) =
    (if (rest5.dropWhile isSpaceRE2).dropWhile isDigitC = []
     then some (g1, g2, (rest5.dropWhile isSpaceRE2).takeWhile isDigitC)
     else Option.none) := by
  rw [dropWhile_map_charLower _ isSpaceRE2_charLower,
    dropWhile_map_charLower _ isDigitC_charLower,
    takeWhile_map_charLower _ isDigitC_charLower charLower_fix_digit]
  by_cases hfin : (rest5.dropWhile isSpaceRE2).dropWhile isDigitC = []
  · rw [if_pos hfin, if_pos (List.map_eq_nil_iff.mpr hfin)]
  · rw [if_neg hfin, if_neg (fun hcon => hfin (List.map_eq_nil_iff.mp hcon))]

theorem diceRegexMatch_goToLower (l : List Char) :
    diceRegexMatch (goToLower l) = diceRegexMatch l := by
  rw [diceRegexMatch, diceRegexMatch, goToLower]
  rw [dropWhile_map_charLower _ isDigitC_charLower,
    takeWhile_map_charLower _ isDigitC_charLower charLower_fix_digit]
  rcases hdrop : l.dropWhile isDigitC with _ | ⟨c, rest2⟩
  · rfl
  · simp only [List.map_cons]
    by_cases hdD : c = 'd' ∨ c = 'D'
    · rw [if_pos hdD, if_pos ((charLower_dD c).mpr hdD)]
      rw [takeWhile_map_charLower _ isDigitC_charLower charLower_fix_digit]
      by_cases hfe : rest2.takeWhile isDigitC = []
      · rw [if_pos hfe, if_pos hfe]
      · rw [if_neg hfe, if_neg hfe]
        rw [dropWhile_map_charLower _ isDigitC_charLower,
          dropWhile_map_charLower _ isSpaceRE2_charLower]
        have hplus : (((rest2.dropWhile isDigitC).dropWhile isSpaceRE2).map
            charLower).head? = some '+' ↔
            ((rest2.dropWhile isDigitC).dropWhile isSpaceRE2).head? = some '+' :=
          iff_of_eq (head?_plus_map _)
        have htl : (((rest2.dropWhile isDigitC).dropWhile isSpaceRE2).map
            charLower).tail =
            ((rest2.dropWhile isDigitC).dropWhile isSpaceRE2).tail.map
              charLower := by
          rcases (rest2.dropWhile isDigitC).dropWhile isSpaceRE2 <;> rfl
        by_cases hp : ((rest2.dropWhile isDigitC).dropWhile isSpaceRE2).head? =
            some '+'
        · rw [if_pos hp, if_pos (hplus.mpr hp), htl]
          exact diceTail_lower_eq _ _ _
        · rw [if_neg hp, if_neg (fun hcon => hp (hplus.mp hcon))]
          exact diceTail_lower_eq _ _ _
    · rw [if_neg hdD, if_neg (fun hcon => hdD ((charLower_dD c).mp hcon))]

/-! ## Damage-distribution lemmas -/

theorem get_range_map (n : ℕ) (v : ℕ → ℚ) (k : ℤ) :
    get ((List.range n).map (fun j : ℕ => ((j : ℤ), v j))) k =
      if 0 ≤ k ∧ k.toNat < n then v k.toNat else 0 := by
  induction n with
  | zero =>
    rw [if_neg (by omega)]
    rfl
  | succ m ih =>
    rw [List.range_succ, List.map_append, get_append, ih]
    have hsing : get [((m : ℤ), v m)] k = if (m : ℤ) = k then v m else 0 := by
      rw [get_cons, get_nil, add_zero]
    rw [List.map_cons, List.map_nil, hsing]
    by_cases h1 : 0 ≤ k ∧ k.toNat < m
    · rw [if_pos h1, if_neg (by omega), if_pos (by omega), add_zero]
    · by_cases h2 : (m : ℤ) = k
      · rw [if_neg h1, if_pos h2, if_pos (by omega), zero_add]
        have : k.toNat = m := by omega
        rw [this]
      · rw [if_neg h1, if_neg h2, if_neg (by omega), add_zero]

theorem get_applyFeelNoPain (base : Dist ℤ) (fnp : ℤ) (k : ℤ) (hk : 0 ≤ k) :
    get (applyFeelNoPain base fnp) k =
      (base.map (fun e =>
        e.2 * (goNCr e.1 k : ℚ) *
          (1 - (if fnp ≤ 6 ∧ 2 ≤ fnp then (7 - (fnp : ℚ)) / 6
            else if fnp ≤ 1 then 1 else 0)) ^ k.toNat *
          (if fnp ≤ 6 ∧ 2 ≤ fnp then (7 - (fnp : ℚ)) / 6
            else if fnp ≤ 1 then 1 else 0) ^ (e.1 - k).toNat)).sum := by
  rw [applyFeelNoPain, get_flatMap]
  congr 1
  refine List.map_congr_left ?_
  intro e _
  rw [get_range_map]
  by_cases h1 : k.toNat < (e.1 + 1).toNat
  · rw [if_pos ⟨hk, h1⟩]
    rw [show ((k.toNat : ℕ) : ℤ) = k from Int.toNat_of_nonneg hk]
  · rw [if_neg (fun hcon => h1 hcon.2)]
    have hkn : e.1 < k := by omega
    have : goNCr e.1 k = 0 := by
      rw [goNCr, if_pos (Or.inr hkn)]
    rw [this]
    push_cast
    ring

/-! ## The bit-exact `nCr` loop: agreement with the binomial coefficient
below the first int64 overflow (`n ≤ 61`) and the `get`-level FNP formula -/

theorem choose_sixtyone : Nat.choose 61 30 = 232714176627630544 := by
  have h1 : Nat.choose 61 1 = 61 := Nat.choose_one_right 61
  have h2 : Nat.choose 61 2 = 1830 := by
    have h := Nat.choose_succ_right_eq 61 1
    norm_num at h
    omega
  have h3 : Nat.choose 61 3 = 35990 := by
    have h := Nat.choose_succ_right_eq 61 2
    norm_num at h
    omega
  have h4 : Nat.choose 61 4 = 521855 := by
    have h := Nat.choose_succ_right_eq 61 3
    norm_num at h
    omega
  have h5 : Nat.choose 61 5 = 5949147 := by
    have h := Nat.choose_succ_right_eq 61 4
    norm_num at h
    omega
  have h6 : Nat.choose 61 6 = 55525372 := by
    have h := Nat.choose_succ_right_eq 61 5
    norm_num at h
    omega
  have h7 : Nat.choose 61 7 = 436270780 := by
    have h := Nat.choose_succ_right_eq 61 6
    norm_num at h
    omega
  have h8 : Nat.choose 61 8 = 2944827765 := by
    have h := Nat.choose_succ_right_eq 61 7
    norm_num at h
    omega
  have h9 : Nat.choose 61 9 = 17341763505 := by
    have h := Nat.choose_succ_right_eq 61 8
    norm_num at h
    omega
  have h10 : Nat.choose 61 10 = 90177170226 := by
    have h := Nat.choose_succ_right_eq 61 9
    norm_num at h
    omega
  have h11 : Nat.choose 61 11 = 418094152866 := by
    have h := Nat.choose_succ_right_eq 61 10
    norm_num at h
    omega
  have h12 : Nat.choose 61 12 = 1742058970275 := by
    have h := Nat.choose_succ_right_eq 61 11
    norm_num at h
    omega
  have h13 : Nat.choose 61 13 = 6566222272575 := by
    have h := Nat.choose_succ_right_eq 61 12
    norm_num at h
    omega
  have h14 : Nat.choose 61 14 = 22512762077400 := by
    have h := Nat.choose_succ_right_eq 61 13
    norm_num at h
    omega
  have h15 : Nat.choose 61 15 = 70539987842520 := by
    have h := Nat.choose_succ_right_eq 61 14
    norm_num at h
    omega
  have h16 : Nat.choose 61 16 = 202802465047245 := by
    have h := Nat.choose_succ_right_eq 61 15
    norm_num at h
    omega
  have h17 : Nat.choose 61 17 = 536830054536825 := by
    have h := Nat.choose_succ_right_eq 61 16
    norm_num at h
    omega
  have h18 : Nat.choose 61 18 = 1312251244423350 := by
    have h := Nat.choose_succ_right_eq 61 17
    norm_num at h
    omega
  have h19 : Nat.choose 61 19 = 2969831763694950 := by
    have h := Nat.choose_succ_right_eq 61 18
    norm_num at h
    omega
  have h20 : Nat.choose 61 20 = 6236646703759395 := by
    have h := Nat.choose_succ_right_eq 61 19
    norm_num at h
    omega
  have h21 : Nat.choose 61 21 = 12176310231149295 := by
    have h := Nat.choose_succ_right_eq 61 20
    norm_num at h
    omega
  have h22 : Nat.choose 61 22 = 22138745874816900 := by
    have h := Nat.choose_succ_right_eq 61 21
    norm_num at h
    omega
  have h23 : Nat.choose 61 23 = 37539612570341700 := by
    have h := Nat.choose_succ_right_eq 61 22
    norm_num at h
    omega
  have h24 : Nat.choose 61 24 = 59437719903041025 := by
    have h := Nat.choose_succ_right_eq 61 23
    norm_num at h
    omega
  have h25 : Nat.choose 61 25 = 87967825456500717 := by
    have h := Nat.choose_succ_right_eq 61 24
    norm_num at h
    omega
  have h26 : Nat.choose 61 26 = 121801604478231762 := by
    have h := Nat.choose_succ_right_eq 61 25
    norm_num at h
    omega
  have h27 : Nat.choose 61 27 = 157890968768078210 := by
    have h := Nat.choose_succ_right_eq 61 26
    norm_num at h
    omega
  have h28 : Nat.choose 61 28 = 191724747789809255 := by
    have h := Nat.choose_succ_right_eq 61 27
    norm_num at h
    omega
  have h29 : Nat.choose 61 29 = 218169540588403635 := by
    have h := Nat.choose_succ_right_eq 61 28
    norm_num at h
    omega
  have h30 : Nat.choose 61 30 = 232714176627630544 := by
    have h := Nat.choose_succ_right_eq 61 29
    norm_num at h
    omega
  exact h30

theorem goNCr_loop_exact (n : ℕ) (hn : n ≤ 61) (k : ℕ) (hk : k ≤ n / 2) :
    ∀ j, j ≤ k →
      (List.range j).foldl
        (fun (res : ℤ) (i : ℕ) =>
          (wrap64 (res * ((n : ℤ) - ((i : ℤ) + 1) + 1))).tdiv ((i : ℤ) + 1)) 1
        = (n.choose j : ℤ) := by
  intro j
  induction j with
  | zero =>
    intro _
    simp
  | succ m ih =>
    intro hj
    rw [List.range_succ, List.foldl_append, ih (by omega), List.foldl_cons,
      List.foldl_nil]
    have hm30 : m + 1 ≤ 30 := by omega
    have hmn : m + 1 ≤ n := by omega
    have hid : n.choose (m + 1) * (m + 1) = n.choose m * (n - m) :=
      Nat.choose_succ_right_eq n m
    have hble : n.choose (m + 1) ≤ 232714176627630544 := by
      have ha := Nat.choose_le_choose (m + 1) hn
      have hb := Nat.choose_le_middle (m + 1) 61
      norm_num at hb
      have hc := choose_sixtyone
      omega
    have hprod : (n.choose m : ℤ) * ((n : ℤ) - ((m : ℤ) + 1) + 1)
        = (n.choose (m + 1) : ℤ) * ((m : ℤ) + 1) := by
      have h1 : ((n : ℤ) - ((m : ℤ) + 1) + 1) = ((n - m : ℕ) : ℤ) := by
        omega
      rw [h1, ← Nat.cast_mul, ← hid, Nat.cast_mul]
      push_cast
      ring
    rw [hprod]
    have hub : (n.choose (m + 1) : ℤ) * ((m : ℤ) + 1) < 2 ^ 63 := by
      have h1 : (n.choose (m + 1) : ℤ) ≤ 232714176627630544 := by
        exact_mod_cast hble
      have h2 : ((m : ℤ) + 1) ≤ 30 := by exact_mod_cast hm30
      have h3 : (n.choose (m + 1) : ℤ) * ((m : ℤ) + 1) ≤
          232714176627630544 * 30 :=
        mul_le_mul h1 h2 (by positivity) (by norm_num)
      omega
    have hlb : (0 : ℤ) ≤ (n.choose (m + 1) : ℤ) * ((m : ℤ) + 1) := by positivity
    rw [wrap64_eq_self _ (by omega) hub]
    exact Int.mul_tdiv_cancel _ (by omega)

theorem goNCrInt64_eq_goNCr (n k : ℤ) (hn : n ≤ 61) :
    goNCrInt64 n k = goNCr n k := by
  rw [goNCrInt64, goNCr]
  by_cases hg : k < 0 ∨ n < k
  · rw [if_pos hg, if_pos hg]
  · rw [if_neg hg, if_neg hg]
    push_neg at hg
    obtain ⟨hk0, hkn⟩ := hg
    have hn0 : 0 ≤ n := le_trans hk0 hkn
    lift n to ℕ using hn0 with N
    lift k to ℕ using hk0 with K
    have hN61 : N ≤ 61 := by exact_mod_cast hn
    have hKN : K ≤ N := by exact_mod_cast hkn
    by_cases h2 : (K : ℤ) = 0 ∨ (K : ℤ) = (N : ℤ)
    · rw [if_pos h2]
      rcases h2 with h | h
      · have : K = 0 := by exact_mod_cast h
        subst this
        simp
      · have : K = N := by exact_mod_cast h
        subst this
        simp
    · rw [if_neg h2]
      push_neg at h2
      obtain ⟨hKne0, hKneN⟩ := h2
      have hKne0N : K ≠ 0 := by
        intro hc
        exact hKne0 (by simp [hc])
      have hKneNN : K ≠ N := by
        intro hc
        exact hKneN (by simp [hc])
      have hK1 : 1 ≤ K := by omega
      have hKltN : K < N := by omega
      have htdiv : (N : ℤ).tdiv 2 = ((N / 2 : ℕ) : ℤ) := by
        exact_mod_cast (Int.ofNat_tdiv N 2).symm
      by_cases hred : (N : ℤ).tdiv 2 < (K : ℤ)
      · rw [if_pos hred]
        rw [htdiv] at hred
        have hNK2 : N / 2 < K := by exact_mod_cast hred
        have h1 : ((N : ℤ) - (K : ℤ)).toNat = N - K := by omega
        rw [h1]
        have hklow : N - K ≤ N / 2 := by omega
        rw [goNCr_loop_exact N hN61 (N - K) hklow (N - K) le_rfl]
        have hsymm := Nat.choose_symm hKN
        simp [hsymm]
      · rw [if_neg hred]
        rw [htdiv] at hred
        have hK2 : K ≤ N / 2 := by
          push_neg at hred
          exact_mod_cast hred
        have h1 : ((K : ℤ)).toNat = K := by omega
        rw [h1]
        rw [goNCr_loop_exact N hN61 K hK2 K le_rfl]
        simp

theorem get_applyFeelNoPainInt64 (base : Dist ℤ) (fnp : ℤ) (k : ℤ)
    (hk : 0 ≤ k) :
    get (applyFeelNoPainInt64 base fnp) k =
      (base.map (fun e =>
        e.2 * (goNCrInt64 e.1 k : ℚ) *
          (1 - (if fnp ≤ 6 ∧ 2 ≤ fnp then (7 - (fnp : ℚ)) / 6
            else if fnp ≤ 1 then 1 else 0)) ^ k.toNat *
          (if fnp ≤ 6 ∧ 2 ≤ fnp then (7 - (fnp : ℚ)) / 6
            else if fnp ≤ 1 then 1 else 0) ^ (e.1 - k).toNat)).sum := by
  rw [applyFeelNoPainInt64, get_flatMap]
  congr 1
  refine List.map_congr_left ?_
  intro e _
  rw [get_range_map]
  by_cases h1 : k.toNat < (e.1 + 1).toNat
  · rw [if_pos ⟨hk, h1⟩]
    rw [show ((k.toNat : ℕ) : ℤ) = k from Int.toNat_of_nonneg hk]
  · rw [if_neg (fun hcon => h1 hcon.2)]
    have hkn : e.1 < k := by omega
    have : goNCrInt64 e.1 k = 0 := by
      rw [goNCrInt64, if_pos (Or.inr hkn)]
    rw [this]
    push_cast
    ring

theorem flatMap_congr {α β : Type} (l : List α) (f g : α → List β)
    (h : ∀ a ∈ l, f a = g a) : l.flatMap f = l.flatMap g := by
  induction l with
  | nil => rfl
  | cons e t ih =>
    rw [List.flatMap_cons, List.flatMap_cons, h e (List.mem_cons_self ..),
      ih (fun a ha => h a (List.mem_cons_of_mem _ ha))]

theorem applyFeelNoPainInt64_eq_le61 (base : Dist ℤ) (fnp : ℤ)
    (hb : ∀ e ∈ base, e.1 ≤ 61) :
    applyFeelNoPainInt64 base fnp = applyFeelNoPain base fnp := by
  rw [applyFeelNoPainInt64, applyFeelNoPain]
  refine flatMap_congr base _ _ ?_
  intro e he
  refine List.map_congr_left ?_
  intro j _
  rw [goNCrInt64_eq_goNCr e.1 (j : ℤ) (hb e he)]

/-! ## Markov-chain state invariant (damage allocation) -/

theorem spillLoop_bounds (mh tm : ℤ) (hmh : 1 ≤ mh) :
    ∀ meas : ℕ, ∀ rem k hp : ℤ, (tm - k).toNat ≤ meas → 0 ≤ rem → 0 ≤ k →
      k ≤ tm → (k < tm → 1 ≤ hp ∧ hp ≤ mh) →
      0 ≤ (spillLoop mh tm rem k hp).1 ∧ (spillLoop mh tm rem k hp).1 ≤ tm ∧
        ((spillLoop mh tm rem k hp).1 < tm →
          1 ≤ (spillLoop mh tm rem k hp).2 ∧ (spillLoop mh tm rem k hp).2 ≤ mh) := by
  intro meas
  induction meas with
  | zero =>
    intro rem k hp hle hrem hk hktm hhp
    have hkeq : k = tm := by omega
    rw [spillLoop, dif_neg (by omega)]
    exact ⟨hk, hktm, fun h => hhp h⟩
  | succ m ih =>
    intro rem k hp hle hrem hk hktm hhp
    rw [spillLoop]
    by_cases hcond : 0 < rem ∧ k < tm
    · rw [dif_pos hcond]
      by_cases hge : hp ≤ rem
      · rw [if_pos hge]
        refine ih (rem - hp) (k + 1) mh (by omega) ?_ (by omega) (by omega) ?_
        · have := (hhp hcond.2).1
          omega
        · intro _
          omega
      · rw [if_neg hge]
        refine ⟨hk, hktm, fun _ => ?_⟩
        have := hhp hcond.2
        omega
    · rw [dif_neg hcond]
      exact ⟨hk, hktm, fun h => hhp h⟩

theorem applyWounds_inv (sts : Dist (ℤ × ℤ)) (dmg : Dist ℤ) (mh tm : ℤ)
    (sp : Bool) (hmh : 1 ≤ mh) (hd : ∀ d ∈ dmg, 0 ≤ d.1)
    (hs : ∀ e ∈ sts, 0 ≤ e.1.1 ∧ e.1.1 ≤ tm ∧
      (e.1.1 < tm → 1 ≤ e.1.2 ∧ e.1.2 ≤ mh)) :
    ∀ e ∈ applyWounds sts dmg mh tm sp, 0 ≤ e.1.1 ∧ e.1.1 ≤ tm ∧
      (e.1.1 < tm → 1 ≤ e.1.2 ∧ e.1.2 ≤ mh) := by
  intro x hx
  rw [applyWounds] at hx
  obtain ⟨e, he, hxe⟩ := List.mem_flatMap.mp hx
  have hse := hs e he
  by_cases habs : tm ≤ e.1.1
  · simp only [habs, if_true, List.mem_singleton] at hxe
    subst hxe
    exact hse
  · simp only [habs, if_false] at hxe
    obtain ⟨d, hdm, hxd⟩ := List.mem_flatMap.mp hxe
    simp only [List.mem_singleton] at hxd
    subst hxd
    have hd0 := hd d hdm
    rcases sp with _ | _
    · simp only [Bool.false_eq_true, if_false]
      by_cases hbig : e.1.2 ≤ d.1
      · simp only [hbig, if_true]
        refine ⟨by omega, by omega, fun _ => by omega⟩
      · simp only [hbig, if_false]
        have := hse.2.2 (by omega)
        refine ⟨by omega, by omega, fun _ => by omega⟩
    · simp only [if_true]
      exact spillLoop_bounds mh tm hmh ((tm - e.1.1).toNat) d.1 e.1.1 e.1.2
        le_rfl hd0 hse.1 hse.2.1 hse.2.2

theorem statesInv_iterate (dmg : Dist ℤ) (mh tm : ℤ) (sp : Bool)
    (hmh : 1 ≤ mh) (hd : ∀ d ∈ dmg, 0 ≤ d.1) (n : ℕ) (sts : Dist (ℤ × ℤ))
    (hs : ∀ e ∈ sts, 0 ≤ e.1.1 ∧ e.1.1 ≤ tm ∧
      (e.1.1 < tm → 1 ≤ e.1.2 ∧ e.1.2 ≤ mh)) :
    ∀ e ∈ (fun s => applyWounds s dmg mh tm sp)^[n] sts,
      0 ≤ e.1.1 ∧ e.1.1 ≤ tm ∧ (e.1.1 < tm → 1 ≤ e.1.2 ∧ e.1.2 ≤ mh) := by
  induction n with
  | zero => exact hs
  | succ m ih =>
    rw [Function.iterate_succ_apply']
    exact applyWounds_inv _ dmg mh tm sp hmh hd ih

/-! ## Engine-level sums and non-negativity -/

/-- Claim C1, counterexample: with `torrent = true` and `bs = 4` the hit
probabilities the engine uses are `(0.5, 0)`, not `(1.0, 0.0)`: the engine
never reads the torrent flag. -/
theorem claimC1_counterexample :
    reqTorrent.Torrent = true ∧
    engineHitProbs reqTorrent = (1/2, 0) ∧
    ¬ engineHitProbs reqTorrent = (1, 0) := by
  refine ⟨rfl, ?_, ?_⟩ <;> with_unfolding_all decide

/-- Claim C1, amended: the `torrent` flag has no effect whatsoever — the
engine's hit probabilities and its entire response are computed from the other
fields only (`_calculateHitProbability` is called without the flag). -/
theorem claimC1_torrent_ignored (req : DamageRequest) (b : Bool) :
    CalculateDamageCore { req with Torrent := b } = CalculateDamageCore req ∧
    engineHitProbs { req with Torrent := b } = engineHitProbs req :=
  ⟨rfl, rfl⟩

/-- Claim C2, counterexample: a request with `num_models = 0` is accepted by
the engine (no error is returned, and distributions are produced). -/
theorem claimC2_counterexample :
    reqNoModels.NumModels = 0 ∧ CalculateDamageCore reqNoModels ≠ Option.none := by
  constructor
  · rfl
  · with_unfolding_all decide

/-- Claim C2, amended: the engine performs no unit validation.  For requests
with `num_models ≤ 0` or `wounds_per_model ≤ 0` (as for all others), it
returns a result exactly when the attacks string parses; the validation the
claim describes exists only in the unfinished placeholder variant, which
checks `num_models` alone. -/
theorem claimC2_no_validation (req : DamageRequest)
    (h : req.NumModels ≤ 0 ∨ req.WoundsPerModel ≤ 0) :
    ((CalculateDamageCore req).isSome ↔
      (CalculateAttackDistribution req.AttacksString).isSome) := by
  rcases hA : CalculateAttackDistribution req.AttacksString with _ | l
  · unfold CalculateDamageCore
    rw [hA]
    simp
  · unfold CalculateDamageCore
    rw [hA]
    simp

/-- Claim C2, witness. -/
theorem claimC2_witness :
    reqNoModels.NumModels ≤ 0 ∧
    ((CalculateDamageCore reqNoModels).isSome ↔
      (CalculateAttackDistribution reqNoModels.AttacksString).isSome) :=
  ⟨by with_unfolding_all decide,
   claimC2_no_validation reqNoModels (Or.inl (by with_unfolding_all decide))⟩

/-- Claim C3: `resolveDamageSequential` applies all normal wounds before any
mortal wounds; a normal wound with damage `d` against `(k, hp)` moves to
`(k+1, maxHP)` when `d ≥ hp` (excess discarded) and to `(k, hp−d)` otherwise;
a mortal wound cascades, repeatedly subtracting `hp` and incrementing `k`
until the remainder is below the current `hp` or `k` reaches `totalModels`. -/
theorem claimC3_sequential_damage :
    (∀ (nN nM : ℤ) (dmg : Dist ℤ) (mh tm : ℤ),
      resolveDamageSequential nN nM dmg mh tm =
        ((fun s => applyWounds s dmg mh tm true)^[nM.toNat]
          ((fun s => applyWounds s dmg mh tm false)^[nN.toNat]
            [(((0 : ℤ), mh), (1 : ℚ))])).map (fun e => (e.1.1, e.2))) ∧
    (∀ (mh tm k hp d : ℤ) (p q : ℚ), k < tm →
      applyWounds [((k, hp), p)] [(d, q)] mh tm false =
        [(if hp ≤ d then (k + 1, mh) else (k, hp - d), p * q)]) ∧
    (∀ (mh tm k hp d : ℤ) (p q : ℚ), k < tm →
      applyWounds [((k, hp), p)] [(d, q)] mh tm true =
        [(spillLoop mh tm d k hp, p * q)]) ∧
    (∀ mh tm rem k hp : ℤ, 0 < rem → k < tm → hp ≤ rem →
      spillLoop mh tm rem k hp = spillLoop mh tm (rem - hp) (k + 1) mh) ∧
    (∀ mh tm rem k hp : ℤ, 0 < rem → k < tm → rem < hp →
      spillLoop mh tm rem k hp = (k, hp - rem)) ∧
    (∀ mh tm rem k hp : ℤ, rem ≤ 0 ∨ tm ≤ k →
      spillLoop mh tm rem k hp = (k, hp)) := by
  refine ⟨fun nN nM dmg mh tm => rfl, ?_, ?_, ?_, ?_, ?_⟩
  · intro mh tm k hp d p q hk
    rw [applyWounds]
    simp only [List.flatMap_cons, List.flatMap_nil, List.append_nil,
      if_neg (not_le.mpr hk), Bool.false_eq_true, if_false]
  · intro mh tm k hp d p q hk
    rw [applyWounds]
    simp only [List.flatMap_cons, List.flatMap_nil, List.append_nil,
      if_neg (not_le.mpr hk), if_true]
  · intro mh tm rem k hp h1 h2 h3
    rw [spillLoop, dif_pos ⟨h1, h2⟩, if_pos h3]
  · intro mh tm rem k hp h1 h2 h3
    rw [spillLoop, dif_pos ⟨h1, h2⟩, if_neg (not_le.mpr h3)]
  · intro mh tm rem k hp h
    rw [spillLoop, dif_neg (by omega)]

/-- Claim C3, witness. -/
theorem claimC3_witness :
    applyWounds [(((0 : ℤ), (2 : ℤ)), (1 : ℚ))] [((3 : ℤ), (1 : ℚ))] 2 2 false =
      [(((1 : ℤ), (2 : ℤ)), (1 : ℚ))] ∧
    spillLoop 2 3 5 0 2 = spillLoop 2 3 3 1 2 := by
  constructor
  · exact (claimC3_sequential_damage.2.1 2 2 0 2 3 1 1 (by norm_num)).trans
      (by with_unfolding_all decide)
  · exact claimC3_sequential_damage.2.2.2.1 2 3 5 0 2 (by norm_num)
      (by norm_num) (by norm_num)

/-- Claim C4: with `num_models ≥ 1`, `wounds_per_model ≥ 1` and a damage PMF
supported on non-negative integers, every reachable Markov state satisfies
`0 ≤ killed ≤ num_models` with `1 ≤ current_hp ≤ wounds_per_model` in every
non-terminal state; states with `killed = num_models` are absorbing; and the
destroyed PMF has support inside `[0, num_models]`. -/
theorem claimC4_markov_invariant (dmg : Dist ℤ) (mh tm : ℤ)
    (htm : 1 ≤ tm) (hmh : 1 ≤ mh) (hd : ∀ d ∈ dmg, 0 ≤ d.1) :
    (∀ nN nM : ℕ, ∀ e ∈ (fun s => applyWounds s dmg mh tm true)^[nM]
        ((fun s => applyWounds s dmg mh tm false)^[nN]
          [(((0 : ℤ), mh), (1 : ℚ))]),
      0 ≤ e.1.1 ∧ e.1.1 ≤ tm ∧ (e.1.1 < tm → 1 ≤ e.1.2 ∧ e.1.2 ≤ mh)) ∧
    (∀ (st : ℤ × ℤ) (p : ℚ) (sp : Bool), tm ≤ st.1 →
      applyWounds [(st, p)] dmg mh tm sp = [(st, p)]) ∧
    (∀ nN nM k : ℤ, get (resolveDamageSequential nN nM dmg mh tm) k ≠ 0 →
      0 ≤ k ∧ k ≤ tm) := by
  have hinit : ∀ e ∈ [(((0 : ℤ), mh), (1 : ℚ))],
      0 ≤ e.1.1 ∧ e.1.1 ≤ tm ∧ (e.1.1 < tm → 1 ≤ e.1.2 ∧ e.1.2 ≤ mh) := by
    intro e he
    simp only [List.mem_singleton] at he
    subst he
    refine ⟨le_refl 0, ?_, fun _ => ⟨hmh, le_refl mh⟩⟩
    show (0 : ℤ) ≤ tm
    omega
  refine ⟨?_, ?_, ?_⟩
  · intro nN nM
    exact statesInv_iterate dmg mh tm true hmh hd nM _
      (statesInv_iterate dmg mh tm false hmh hd nN _ hinit)
  · intro st p sp h
    rw [applyWounds]
    simp only [List.flatMap_cons, List.flatMap_nil, List.append_nil, if_pos h]
  · intro nN nM k hne
    obtain ⟨x, hx, hxk⟩ := get_of_ne_zero _ k hne
    rw [resolveDamageSequential] at hx
    obtain ⟨e, he, hxe⟩ := List.mem_map.mp hx
    subst hxe
    have hinv := statesInv_iterate dmg mh tm true hmh hd nM.toNat _
      (statesInv_iterate dmg mh tm false hmh hd nN.toNat _ hinit) e he
    simp only [] at hxk
    subst hxk
    exact ⟨hinv.1, hinv.2.1⟩

/-- Claim C4, witness. -/
theorem claimC4_witness :
    get (resolveDamageSequential 1 1 [((2 : ℤ), (1 : ℚ))] 3 2) 4 = 0 := by
  have h := (claimC4_markov_invariant [((2 : ℤ), (1 : ℚ))] 3 2 (by norm_num)
    (by norm_num) (by
      intro d hd
      simp only [List.mem_singleton] at hd
      subst hd
      norm_num)).2.2
  by_contra hne
  have hb := h 1 1 4 hne
  omega

/-- Claim C5: with BS 4, no modifier, reroll-fail and lethal hits, the hit
calculator returns `(0.5, 0.25)` (total hit probability 0.75), and in general
the lethal chance under reroll-fail is `1/6 + miss·(1/6)` with the
pre-reroll miss chance `miss = 1 − clamped base hit chance`. -/
theorem claimC5_lethal_reroll_fail :
    _calculateHitProbability 4 RerollType.fail 0 true = (1/2, 1/4) ∧
    (_calculateHitProbability 4 RerollType.fail 0 true).1 +
      (_calculateHitProbability 4 RerollType.fail 0 true).2 = 3/4 ∧
    (∀ bs m : ℤ,
      (_calculateHitProbability bs RerollType.fail m true).2 =
        1/6 + (1 - max (1/6 : ℚ)
          (min ((7 - (bs : ℚ) + (m : ℚ)) / 6) (5/6))) * (1/6)) := by
  refine ⟨by with_unfolding_all decide, by with_unfolding_all decide, ?_⟩
  intro bs m
  rw [_calculateHitProbability]
  simp only [reduceCtorEq, if_false, if_true, reduceIte]

/-- Claim C7, counterexample: the binomial-expansion formula fails on the
program once the `nCr` int64 loop wraps.  The damage string "62" parses to
the base PMF `{62: 1}`; with `feel_no_pain = 5` the program's coefficient
`nCr(62, 31)` wraps to `-284401161134521734`, so the bit-exact damage PMF is
negative at `k = 31`, while the claimed binomial term
`1 · C(62,31) · (2/3)^31 · (1/3)^31` is non-negative — so the PMF is not the
claimed binomial expansion. -/
theorem claimC7_counterexample :
    parseAndCalculateBaseDamage "62" = [((62 : ℤ), (1 : ℚ))] ∧
    goNCrInt64 62 31 = -284401161134521734 ∧
    get (applyFeelNoPainInt64 [((62 : ℤ), (1 : ℚ))] 5) 31 < 0 ∧
    get (applyFeelNoPainInt64 [((62 : ℤ), (1 : ℚ))] 5) 31 ≠
      1 * ((62 : ℕ).choose 31 : ℚ) * (2 / 3) ^ 31 * (1 / 3) ^ 31 := by
  have hneg : get (applyFeelNoPainInt64 [((62 : ℤ), (1 : ℚ))] 5) 31 < 0 := by
    with_unfolding_all decide
  refine ⟨by rfl, by with_unfolding_all decide, hneg, ?_⟩
  have hpos : (0 : ℚ) ≤
      1 * ((62 : ℕ).choose 31 : ℚ) * (2 / 3) ^ 31 * (1 / 3) ^ 31 := by
    positivity
  exact ne_of_lt (lt_of_lt_of_le hneg hpos)

/-- Claim C7, amended: with a Feel-No-Pain value present the damage PMF is
`PMF[k] = Σₙ p(n)·nCr64(n,k)·pFail^k·pSave^(n−k)`, where `nCr64` is the
program's int64 `nCr` loop, `pSave = (7−fnp)/6` for `2 ≤ fnp ≤ 6`, `1` for
`fnp ≤ 1` and `0` otherwise (`fnp ≥ 7`), and `pFail = 1 − pSave`.  The loop
computes the true binomial coefficient `C(n,k)` for every `0 ≤ k ≤ n ≤ 61`
(so the claimed binomial expansion is correct for damage values up to 61,
where the bit-exact and idealized FNP transforms coincide), but wraps at
`n = 62`; in particular damage "2" with `feel_no_pain = 5` gives
`{0: 1/9, 1: 4/9, 2: 4/9}`. -/
theorem claimC7_fnp_binomial :
    (∀ (base : Dist ℤ) (fnp k : ℤ), 0 ≤ k →
      get (applyFeelNoPainInt64 base fnp) k =
        (base.map (fun e =>
          e.2 * (goNCrInt64 e.1 k : ℚ) *
            (1 - (if fnp ≤ 6 ∧ 2 ≤ fnp then (7 - (fnp : ℚ)) / 6
              else if fnp ≤ 1 then 1 else 0)) ^ k.toNat *
            (if fnp ≤ 6 ∧ 2 ≤ fnp then (7 - (fnp : ℚ)) / 6
              else if fnp ≤ 1 then 1 else 0) ^ (e.1 - k).toNat)).sum) ∧
    (∀ n k : ℤ, 0 ≤ k → k ≤ n → n ≤ 61 →
      goNCrInt64 n k = (n.toNat.choose k.toNat : ℤ)) ∧
    (∀ (base : Dist ℤ) (fnp : ℤ), (∀ e ∈ base, e.1 ≤ 61) →
      applyFeelNoPainInt64 base fnp = applyFeelNoPain base fnp) ∧
    (_calculateDamageDistribution "2" (some 5) =
      applyFeelNoPainInt64 (parseAndCalculateBaseDamage "2") 5 ∧
     get (_calculateDamageDistribution "2" (some 5)) 0 = 1/9 ∧
     get (_calculateDamageDistribution "2" (some 5)) 1 = 4/9 ∧
     get (_calculateDamageDistribution "2" (some 5)) 2 = 4/9) := by
  refine ⟨fun base fnp k hk => get_applyFeelNoPainInt64 base fnp k hk,
    fun n k h0 h1 h2 => ?_, applyFeelNoPainInt64_eq_le61, ?_, ?_, ?_, ?_⟩
  · rw [goNCrInt64_eq_goNCr n k h2, goNCr,
      if_neg (show ¬ (k < 0 ∨ n < k) by omega)]
  · with_unfolding_all decide
  · with_unfolding_all decide
  · with_unfolding_all decide
  · with_unfolding_all decide

/-- Claim C7, witness. -/
theorem claimC7_witness :
    get (applyFeelNoPainInt64 [((2 : ℤ), (1 : ℚ))] 5) 1 = 4/9 ∧
    goNCrInt64 5 2 = 10 ∧
    applyFeelNoPainInt64 [((2 : ℤ), (1 : ℚ))] 5 =
      applyFeelNoPain [((2 : ℤ), (1 : ℚ))] 5 := by
  refine ⟨?_, ?_, ?_⟩
  · have h := claimC7_fnp_binomial.1 [((2 : ℤ), (1 : ℚ))] 5 1 (by norm_num)
    rw [h]
    with_unfolding_all decide
  · have h := claimC7_fnp_binomial.2.1 5 2 (by norm_num) (by norm_num)
      (by norm_num)
    rw [h]
    with_unfolding_all decide
  · exact claimC7_fnp_binomial.2.2.1 [((2 : ℤ), (1 : ℚ))] 5
      (by with_unfolding_all decide)

/-- Claim C9: every string that neither parses as an integer nor matches the
(case-insensitive) dice grammar is rejected with an error by the attacks
parser, while the damage parser tolerantly returns `{0: 1.0}` (and
`_calculateDamageDistribution` has no error path at all). -/
theorem claimC9_parser_strictness (s : String)
    (hInt : goAtoi (goTrimSpace s.data) = Option.none)
    (hDice : diceRegexMatch (goTrimSpace s.data) = Option.none) :
    CalculateAttackDistribution s = Option.none ∧
    parseAndCalculateBaseDamage s = [(0, 1)] ∧
    _calculateDamageDistribution s Option.none = [(0, 1)] := by
  have hbase : parseAndCalculateBaseDamage s = [(0, 1)] := by
    rw [parseAndCalculateBaseDamage]
    rw [show goToLower (goTrimSpace s.data) =
      (goTrimSpace s.data).map charLower from rfl]
    rw [show diceRegexMatch ((goTrimSpace s.data).map charLower) =
      diceRegexMatch (goTrimSpace s.data) from diceRegexMatch_goToLower _]
    rw [hDice]
    rw [show goAtoi ((goTrimSpace s.data).map charLower) =
      goAtoi (goTrimSpace s.data) from goAtoi_goToLower _]
    rw [hInt]
  refine ⟨?_, hbase, ?_⟩
  · rw [CalculateAttackDistribution, hInt, hDice]
  · unfold _calculateDamageDistribution
    exact hbase

/-- Claim C9, witness. -/
theorem claimC9_witness :
    goAtoi (goTrimSpace "abc".data) = Option.none ∧
    CalculateAttackDistribution "abc" = Option.none ∧
    _calculateDamageDistribution "abc" Option.none = [(0, 1)] := by
  have h := claimC9_parser_strictness "abc" (by with_unfolding_all decide)
    (by with_unfolding_all decide)
  exact ⟨by with_unfolding_all decide, h.1, h.2.2⟩

/-- Claim C10, counterexample: the claim fails as stated.  The attacks parser
accepts the bare negative integer "-3" (via `strconv.Atoi`), whose PMF has
the negative key −3; it accepts "d0", whose PMF is empty and sums to 0; and
it accepts "d2+9223372036854775807" (`Atoi` admits exactly `MaxInt64`),
whose true keys `1 + MaxInt64` and `2 + MaxInt64` wrap in int64 to the
negative keys −9223372036854775808 and −9223372036854775807. -/
theorem claimC10_counterexample :
    ¬ (∀ (s : String) (l : Dist ℤ), CalculateAttackDistribution s = some l →
        sumValues l = 1 ∧ ∀ e ∈ l, 0 ≤ e.1) ∧
    CalculateAttackDistribution "-3" = some [(-3, 1)] ∧
    CalculateAttackDistribution "d0" = some [] ∧
    CalculateAttackDistribution "d2+9223372036854775807" =
      some [(-9223372036854775808, 1 * (1 / 2)),
        (-9223372036854775807, 1 * (1 / 2))] := by
  refine ⟨?_, by with_unfolding_all decide, by with_unfolding_all decide,
    by rfl⟩
  intro hcon
  have h := hcon "-3" [(-3, 1)] (by with_unfolding_all decide)
  have h2 := h.2 (-3, 1) (List.mem_singleton.mpr rfl)
  have h3 : (0 : ℤ) ≤ -3 := h2
  omega

/-- Claim C10, amended: for every input the attacks parser accepts, the
returned PMF sums to 1 and has only non-negative keys, except in exactly the
three cases the counterexample forces: a bare integer may be negative (its
PMF is `{n: 1}` with the negative key `n`); a dice expression with zero
faces (and count ≥ 1) yields the empty PMF, which sums to 0; and a dice
expression whose digits-only modifier `m` (accepted up to `MaxInt64`) pushes
a key `c + m` (`c ≥ 0` a convolution sum) past `2^63 − 1` still sums to 1
but carries that key wrapped to the negative int64 value `wrap64 (c + m)`. -/
theorem claimC10_accepted_pmf (s : String) (l : Dist ℤ)
    (h : CalculateAttackDistribution s = some l) :
    (sumValues l = 1 ∧ ∀ e ∈ l, 0 ≤ e.1) ∨
    (∃ v : ℤ, v < 0 ∧ goAtoi (goTrimSpace s.data) = some v ∧ l = [(v, 1)]) ∨
    (∃ cs fs ms : List Char,
      diceRegexMatch (goTrimSpace s.data) = some (cs, fs, ms) ∧
      digitsToNat fs = 0 ∧ l = []) ∨
    (sumValues l = 1 ∧ ∃ x ∈ l, x.1 < 0 ∧ ∃ c m : ℤ, 0 ≤ c ∧ 0 ≤ m ∧
      m ≤ 2 ^ 63 - 1 ∧ x.1 = wrap64 (c + m) ∧ 2 ^ 63 ≤ c + m) :=
  attacks_accepted_cases s l h

/-- Claim C10, witness. -/
theorem claimC10_witness :
    CalculateAttackDistribution "3" = some [(3, 1)] ∧
    sumValues [((3 : ℤ), (1 : ℚ))] = 1 := by
  have hp : CalculateAttackDistribution "3" = some [((3 : ℤ), (1 : ℚ))] := by
    with_unfolding_all decide
  refine ⟨hp, ?_⟩
  rcases claimC10_accepted_pmf "3" [(3, 1)] hp with h | h | h | h
  · exact h.1
  · obtain ⟨v, hv, hAt, hl⟩ := h
    rw [show goAtoi (goTrimSpace "3".data) = some 3 from by
      with_unfolding_all decide] at hAt
    have : (3 : ℤ) = v := by injection hAt
    omega
  · obtain ⟨cs, fs, ms, hDice, _, hl⟩ := h
    exact absurd hl (by simp)
  · obtain ⟨hsum, x, hx, hxneg, _⟩ := h
    simp only [List.mem_singleton] at hx
    subst hx
    exact absurd hxneg (by decide)
